import Mathlib

/-!
Shallow embedding of the verificarlo-extension experiment pipeline
(`soc/scripts/*.py`, `src/scripts/*.py` and `src/scripts/utils/*.py`),
with theorems checking the natural-language specification against it.

Each definition models one Python function or data shape; doc comments
name the source symbol it embeds.  Machine floats read from program
output are modelled as an abstract value (`PyVal`), exact arithmetic of
the comparison oracle over `ℚ`.
-/

/-- Python character class `\w` (ASCII): letters, digits, underscore. -/
def isWordChar (c : Char) : Bool := c.isAlphanum || c = '_'

/-- Python character class `\s` (ASCII): the six whitespace characters. -/
def isPySpace (c : Char) : Bool :=
  c = ' ' || c = '\t' || c = '\n' || c = '\r' || c = '\x0b' || c = '\x0c'

/-- Hex digit as in the regex class `[0-9a-fA-F]`. -/
def isHexDigitChar (c : Char) : Bool :=
  c.isDigit || (97 ≤ c.toNat && c.toNat ≤ 102) || (65 ≤ c.toNat && c.toNat ≤ 70)

/-- Match a literal character sequence; return the rest on success. -/
def matchLit : List Char → List Char → Option (List Char)
  | [], s => some s
  | _ :: _, [] => none
  | c :: cs, d :: ds => if c = d then matchLit cs ds else none

/-- Greedy `p+`: the maximal nonempty run of characters satisfying `p`,
with the remainder; `none` when the first character fails `p`. -/
def takeWhile1 (p : Char → Bool) (s : List Char) : Option (List Char × List Char) :=
  if (s.takeWhile p).isEmpty then none else some (s.takeWhile p, s.dropWhile p)

/-- Decimal digit run to a natural number, as Python `int` on the digits. -/
def digitsToNat (ds : List Char) : Nat :=
  ds.foldl (fun a c => a * 10 + (c.toNat - 48)) 0

/-- Python `str.strip()`: drop leading and trailing whitespace. -/
def pyStrip (s : List Char) : List Char :=
  ((s.dropWhile isPySpace).reverse.dropWhile isPySpace).reverse

/-- Insert into an ascending duplicate-free list, keeping it so. -/
def insertAsc (n : Nat) : List Nat → List Nat
  | [] => [n]
  | m :: ms => if n < m then n :: m :: ms else if n = m then m :: ms else m :: insertAsc n ms

/-- Python `sorted(set(l))`: the ascending duplicate-free enumeration. -/
def sortedDedup (l : List Nat) : List Nat := l.foldr insertAsc []

theorem mem_insertAsc (k n : Nat) : ∀ l, k ∈ insertAsc n l ↔ k = n ∨ k ∈ l := by
  intro l
  induction l with
  | nil => simp [insertAsc]
  | cons m ms ih =>
    by_cases h1 : n < m
    · simp [insertAsc, h1]
    · by_cases h2 : n = m
      · subst h2
        simp only [insertAsc, h1, if_neg, if_pos rfl]
        constructor
        · intro h; exact Or.inr h
        · rintro (rfl | h)
          · exact List.mem_cons_self _ _
          · exact h
      · simp only [insertAsc, if_neg h1, if_neg h2, List.mem_cons, ih]
        tauto

theorem sorted_insertAsc (n : Nat) : ∀ l, l.Sorted (· < ·) → (insertAsc n l).Sorted (· < ·) := by
  intro l
  induction l with
  | nil => intro _; simp [insertAsc]
  | cons m ms ih =>
    intro hs
    rw [List.sorted_cons] at hs
    obtain ⟨hm, hms⟩ := hs
    by_cases h1 : n < m
    · simp only [insertAsc, if_pos h1]
      rw [List.sorted_cons]
      refine ⟨?_, ?_⟩
      · intro b hb
        rcases List.mem_cons.mp hb with rfl | hb
        · exact h1
        · exact h1.trans (hm b hb)
      · rw [List.sorted_cons]; exact ⟨hm, hms⟩
    · by_cases h2 : n = m
      · subst h2
        rw [insertAsc, if_neg h1, if_pos rfl]
        rw [List.sorted_cons]; exact ⟨hm, hms⟩
      · simp only [insertAsc, if_neg h1, if_neg h2]
        rw [List.sorted_cons]
        refine ⟨?_, ih hms⟩
        intro b hb
        rcases (mem_insertAsc b n ms).mp hb with rfl | hb
        · omega
        · exact hm b hb

theorem sortedDedup_sorted (l : List Nat) : (sortedDedup l).Sorted (· < ·) := by
  induction l with
  | nil => simp [sortedDedup]
  | cons x xs ih => exact sorted_insertAsc x _ ih

theorem mem_sortedDedup (k : Nat) (l : List Nat) : k ∈ sortedDedup l ↔ k ∈ l := by
  induction l with
  | nil => simp [sortedDedup]
  | cons x xs ih =>
    simp only [sortedDedup, List.foldr_cons, List.mem_cons]
    rw [mem_insertAsc]
    exact or_congr Iff.rfl ih

/-! ## Deviation oracle (`soc/scripts/05_setup_ddebug.py`, `create_ddcmp_script`)

The generated `ddCmp` script computes
`np.std([ref, cur]) / np.abs(np.mean([ref, cur]))` and exits 0 iff the
deviation is strictly below the threshold.  `np.std` is the population
standard deviation; for the two-sample list `[r, c]` it equals
`|r - c| / 2` exactly (see `std2_sq`), which keeps the embedding in `ℚ`. -/

/-- `np.mean([r, c])`. -/
def mean2 (r c : ℚ) : ℚ := (r + c) / 2

/-- `np.std([r, c])` (population standard deviation, `ddof=0`),
written in the closed two-sample form `|r - c| / 2`. -/
def std2 (r c : ℚ) : ℚ := |r - c| / 2

/-- `std2` really is the square root of the two-sample population
variance: it is nonnegative and squares to the mean squared deviation. -/
theorem std2_sq (r c : ℚ) :
    0 ≤ std2 r c ∧ (std2 r c) ^ 2 = ((r - mean2 r c) ^ 2 + (c - mean2 r c) ^ 2) / 2 := by
  constructor
  · exact div_nonneg (abs_nonneg _) (by norm_num)
  · rw [std2, mean2, div_pow, sq_abs]
    ring

/-- The deviation statistic of the generated compare script. -/
def deviation (r c : ℚ) : ℚ := std2 r c / |mean2 r c|

/-- Exit status of the generated `ddCmp` script:
`sys.exit(0 if deviation < MAX_DEVIATION else 1)`. -/
def ddCmp_exit (r c threshold : ℚ) : Nat := if deviation r c < threshold then 0 else 1

/-! ## Configuration space generation (`src/scripts/02_generate_variants.py`) -/

/-- `itertools.combinations(l, 2)` in its enumeration order. -/
def pairsOf {α : Type} : List α → List (α × α)
  | [] => []
  | x :: xs => xs.map (fun y => (x, y)) ++ pairsOf xs

/-- `generate_configs(all_variables, type)`: baseline first, then (mode
`"both"`) all singles, then (modes `"pairs"`/`"both"`) all 2-combinations. -/
def generate_configs (all_variables : List String) (ty : String) :
    List (String × List String) :=
  ("baseline_all_double", []) ::
    ((if ty = "both" then all_variables.map (fun v => (v ++ "_float", [v])) else []) ++
     (if ty = "pairs" || ty = "both" then
        (pairsOf all_variables).map (fun p => (p.1 ++ "_" ++ p.2 ++ "_float", [p.1, p.2]))
      else []))

theorem pairsOf_length {α : Type} : ∀ l : List α, (pairsOf l).length = Nat.choose l.length 2 := by
  intro l
  induction l with
  | nil => rfl
  | cons x xs ih =>
    simp only [pairsOf, List.length_append, List.length_map, ih, List.length_cons]
    rw [Nat.choose_succ_succ, Nat.choose_one_right]

theorem mem_pairsOf {α : Type} {p : α × α} :
    ∀ {l : List α}, p ∈ pairsOf l → p.1 ∈ l ∧ p.2 ∈ l := by
  intro l
  induction l with
  | nil => intro h; simp [pairsOf] at h
  | cons x xs ih =>
    intro h
    simp only [pairsOf, List.mem_append, List.mem_map] at h
    rcases h with ⟨y, hy, rfl⟩ | h
    · exact ⟨List.mem_cons_self _ _, List.mem_cons_of_mem _ hy⟩
    · obtain ⟨h1, h2⟩ := ih h
      exact ⟨List.mem_cons_of_mem _ h1, List.mem_cons_of_mem _ h2⟩

theorem pairsOf_pairwise {α : Type} :
    ∀ l : List α, l.Nodup →
      (pairsOf l).Pairwise (fun p q => ¬(p.1 = q.1 ∧ p.2 = q.2) ∧ ¬(p.1 = q.2 ∧ p.2 = q.1)) := by
  intro l
  induction l with
  | nil => intro _; simp [pairsOf]
  | cons x xs ih =>
    intro hnd
    rw [List.nodup_cons] at hnd
    obtain ⟨hx, hxs⟩ := hnd
    rw [pairsOf, List.pairwise_append]
    refine ⟨?_, ih hxs, ?_⟩
    · rw [List.pairwise_map]
      have hne : xs.Pairwise (· ≠ ·) := hxs
      refine hne.imp_of_mem ?_
      intro y z hy hz hyz
      constructor
      · rintro ⟨-, h⟩; exact hyz h
      · rintro ⟨h, -⟩
        have h' : x = z := h
        exact hx (h' ▸ hz)
    · intro a ha b hb
      obtain ⟨y, hy, rfl⟩ := List.mem_map.mp ha
      obtain ⟨e1, e2⟩ := mem_pairsOf hb
      constructor
      · rintro ⟨h, -⟩
        have h' : x = b.1 := h
        exact hx (h' ▸ e1)
      · rintro ⟨h, -⟩
        have h' : x = b.2 := h
        exact hx (h' ▸ e2)

/-- Two two-element lists are permutations iff they list the same
unordered pair. -/
theorem perm_pair_iff {α : Type} {a b c d : α} :
    ([a, b] : List α).Perm [c, d] ↔ (a = c ∧ b = d) ∨ (a = d ∧ b = c) := by
  constructor
  · intro h
    have ha : a ∈ ([c, d] : List α) := h.mem_iff.mp (List.mem_cons_self _ _)
    rcases List.mem_cons.mp ha with rfl | ha
    · left
      refine ⟨rfl, ?_⟩
      have := (List.perm_cons a).mp h
      simpa [List.perm_singleton] using this
    · right
      have hd : a = d := by simpa using ha
      subst hd
      refine ⟨rfl, ?_⟩
      have hsw : ([c, a] : List α).Perm [a, c] := List.Perm.swap _ _ _
      have := (List.perm_cons a).mp (h.trans hsw)
      simpa [List.perm_singleton] using this
  · rintro (⟨rfl, rfl⟩ | ⟨rfl, rfl⟩)
    · exact List.Perm.refl _
    · exact List.Perm.swap _ _ _

/-! ## Compilation (`src/scripts/utils/compiler.py`, `VerificarloCompiler.compile`) -/

/-- `CompilationResult` dataclass.  `compile_time` is the elapsed wall
time, which the embedding threads through as a parameter. -/
structure CompilationResult where
  success : Bool
  binary_path : Option String
  returncode : Int
  stdout : String
  stderr : String
  compile_time : ℚ
  error_message : Option String
deriving DecidableEq, Repr

/-- Outcome of the `subprocess.run` call inside `compile`, together with
whether the expected output artifact exists afterwards. -/
inductive CompOutcome where
  | completed (returncode : Int) (stdout stderr : String) (outputExists : Bool)
  | timeout
  | exc (msg : String)
deriving DecidableEq, Repr

/-- `VerificarloCompiler.compile`: success requires exit status 0 and the
output artifact on disk; `subprocess.TimeoutExpired` and any other
exception are caught and turned into failure results. -/
def vfc_compile (out : CompOutcome) (output_path : String) (elapsed timeoutLimit : ℚ) :
    CompilationResult :=
  match out with
  | .completed rc so se ex =>
    if rc = 0 ∧ ex = true then
      ⟨true, some output_path, rc, so, se, elapsed, none⟩
    else
      ⟨false, none, rc, so, se, elapsed, some (if se = "" then "Binary not created" else se)⟩
  | .timeout => ⟨false, none, -1, "", "", timeoutLimit, some "Compilation timeout"⟩
  | .exc m => ⟨false, none, -1, "", "", elapsed, some m⟩

/-! ## Output validation (`soc/scripts/04_validate_outputs.py`) -/

/-- The scalar parsed from the binary's last stdout line, classified the
way `math.isnan` / `math.isinf` see it. -/
inductive PyVal where
  | nan
  | inf
  | finite (q : ℚ)
deriving DecidableEq, Repr

/-- `check_validity(value)`. -/
def check_validity : PyVal → Bool × String
  | .nan => (false, "NaN")
  | .inf => (false, "Inf")
  | .finite _ => (true, "valid")

/-- Outcome of `run_binary`: `ok v` when the run succeeded and the last
stdout line parsed as a float `v`; `failed` for timeout, exception,
empty output or parse failure. -/
inductive RunOutcome where
  | ok (v : PyVal)
  | failed
deriving DecidableEq, Repr

/-- One entry of the compilation manifest consumed by step 4, together
with the behaviour its binary exhibits when executed. -/
structure CompCell where
  config_id : String
  modified_vars : List String
  success : Bool
  run : RunOutcome
deriving DecidableEq, Repr

/-- One entry of the validation manifest written by step 4
(`comp_success` is the spread-in `success` field of the compilation). -/
structure ValidationRecord where
  config_id : String
  modified_vars : List String
  comp_success : Bool
  validation_status : String
  valid : Bool
  skip_ddebug : Bool
  output_value : Option PyVal
  validity_reason : Option String
deriving DecidableEq, Repr

/-- One iteration of the validation loop in `main`: the record appended
to `validation_results` and the increments of `valid_count` and
`invalid_count` (failed compilations are skipped before the counters). -/
def validate_step (c : CompCell) : ValidationRecord × Nat × Nat :=
  if c.success = false then
    (⟨c.config_id, c.modified_vars, c.success, "skipped_compilation_failed", false, true,
      none, none⟩, 0, 0)
  else
    match c.run with
    | .failed =>
      (⟨c.config_id, c.modified_vars, c.success, "execution_failed", false, true,
        none, none⟩, 0, 1)
    | .ok v =>
      let r := check_validity v
      (⟨c.config_id, c.modified_vars, c.success, "completed", r.1, !r.1,
        some v, some r.2⟩, if r.1 then 1 else 0, if r.1 then 0 else 1)

/-- The validation loop over the whole compilation manifest: records in
input order with the two counters. -/
def validate_fold : List CompCell → List ValidationRecord × Nat × Nat
  | [] => ([], 0, 0)
  | c :: cs =>
    let s := validate_step c
    let r := validate_fold cs
    (s.1 :: r.1, s.2.1 + r.2.1, s.2.2 + r.2.2)

/-- The validation manifest written by step 4. -/
structure ValidationManifest where
  total_tested : Nat
  valid : Nat
  invalid : Nat
  validations : List ValidationRecord
deriving DecidableEq, Repr

/-- `main` of `04_validate_outputs.py` as a function of the compilation
manifest entries and their execution behaviour. -/
def validate_outputs_main (cells : List CompCell) : ValidationManifest :=
  let f := validate_fold cells
  ⟨cells.length, f.2.1, f.2.2, f.1⟩

/-- The eligibility filter of `05_setup_ddebug.py`:
`v['valid'] and not v.get('skip_ddebug', False)`. -/
def setup_ddebug_filter (validations : List ValidationRecord) : List ValidationRecord :=
  validations.filter (fun v => v.valid && !v.skip_ddebug)

/-- Per-cell comparison threshold chosen by `05_setup_ddebug.py`:
`1e-2` for reduced-precision cells, `1e-6` for the baseline. -/
def setup_threshold (modified_vars : List String) : ℚ :=
  if modified_vars.isEmpty then 1 / 1000000 else 1 / 100

/-! ## Delta-Debug output parsing (`src/scripts/utils/dd_parser.py`)

`DDLineResult.from_line` applies
`re.match(r'(0x[0-9a-fA-F]+):\s+(\w+)\s+at\s+([^:]+):(\d+)', line.strip())`.
The embedding follows the regex components left to right with greedy
(maximal-munch) runs; maximal munch coincides with the backtracking
semantics of this pattern at every component except the boundary between
`\s+` and `[^:]+` (a space is itself in `[^:]`), where the one fruitful
backtracking step — giving one whitespace character back when the
greedy `\s+` leaves `[^:]+` empty — is spelled out explicitly. -/

structure DDLineResult where
  address : String
  function : String
  file : String
  line : Nat
deriving DecidableEq, Repr

/-- `DDLineResult.from_line(line)`. -/
def DDLineResult.from_line (raw : String) : Option DDLineResult :=
  let s := pyStrip raw.toList
  match matchLit ['0', 'x'] s with
  | none => none
  | some s1 =>
    match takeWhile1 isHexDigitChar s1 with
    | none => none
    | some (hex, s2) =>
      match s2 with
      | ':' :: s3 =>
        match takeWhile1 isPySpace s3 with
        | none => none
        | some (_, s4) =>
          match takeWhile1 isWordChar s4 with
          | none => none
          | some (fn, s5) =>
            match takeWhile1 isPySpace s5 with
            | none => none
            | some (_, s6) =>
              match matchLit ['a', 't'] s6 with
              | none => none
              | some s7 =>
                match takeWhile1 isPySpace s7 with
                | none => none
                | some (ws, s8) =>
                  let fpart := s8.takeWhile (fun c => c != ':')
                  let s9 := s8.dropWhile (fun c => c != ':')
                  let file :=
                    if fpart.isEmpty then
                      (if 2 ≤ ws.length then some [ws.getLastD ' '] else none)
                    else some fpart
                  match file with
                  | none => none
                  | some fileChars =>
                    match s9 with
                    | ':' :: s10 =>
                      match takeWhile1 Char.isDigit s10 with
                      | none => none
                      | some (ds, _) =>
                        some ⟨('0' :: 'x' :: hex).asString, fn.asString,
                          fileChars.asString, digitsToNat ds⟩
                    | _ => none
      | _ => none

/-- `DeltaDebugParser.parse_dd_line_file`: the file is modelled by its
list of lines (`none` when the file does not exist, which yields `[]`,
as does the `CalledProcessError` branch). -/
def parse_dd_line_file (content : Option (List String)) : List DDLineResult :=
  (content.getD []).filterMap DDLineResult.from_line

/-- The minimizer's output tree under `dd.line`, as read by
`find_unstable_lines`: the `rddmin-cmp/dd.line.exclude` file and the
`dd.line.include` file of each `ddmin*` directory (`none` = missing). -/
structure DDTree where
  rddminExclude : Option (List String)
  ddminIncludes : List (Option (List String))
deriving Repr

/-- All line numbers contributed to the union set, before sorting. -/
def ddTreeLines (t : DDTree) : List Nat :=
  (parse_dd_line_file t.rddminExclude).map DDLineResult.line ++
    (t.ddminIncludes.map fun c => (parse_dd_line_file c).map DDLineResult.line).flatten

/-- `DeltaDebugParser.find_unstable_lines(dd_dir)`: the sorted
deduplicated union over the exclude file and every ddmin include file. -/
def find_unstable_lines (t : DDTree) : List Nat :=
  sortedDedup (ddTreeLines t)

/-! ## Delta-Debug runner (`soc/scripts/06_run_ddebug.py`) -/

/-- One per-backend result dictionary appended to `dd_results`.  Option
fields model keys that are present in some branches and absent in
others. -/
structure DDRecord where
  backend : String
  success : Bool
  unstable_lines : Option (List Nat)
  note : Option String
  error : Option String
deriving DecidableEq, Repr

/-- Outcome of the `vfc_ddebug` invocation inside `run_dd`: the process
completed with an exit code and left (or did not leave) a `dd.line`
output tree, or it timed out, or raised. -/
inductive DDOutcome where
  | completed (returncode : Int) (tree : Option DDTree)
  | timeout
  | exc (msg : String)

/-- `run_dd(dd_workspace, backend_name, backend_config)`. -/
def run_dd (backend_name : String) (out : DDOutcome) : DDRecord :=
  match out with
  | .completed rc (some t) =>
    if rc = 0 then
      ⟨backend_name, true, some (find_unstable_lines t), none, none⟩
    else
      ⟨backend_name, true, some (find_unstable_lines t),
        some ("DD exited with code " ++ toString rc ++ " but produced output"), none⟩
  | .completed _ none => ⟨backend_name, false, none, none, some "DD failed"⟩
  | .timeout => ⟨backend_name, false, none, none, some "Timeout"⟩
  | .exc m => ⟨backend_name, false, none, none, some m⟩

/-- The inner loop of `main` in `06_run_ddebug.py`: one `run_dd` record
appended per configured backend, whatever its outcome. -/
def run_dd_all (backends : List String) (out : String → DDOutcome) : List DDRecord :=
  backends.map (fun b => run_dd b (out b))

/-! ## Helper lemmas about the validation fold -/

theorem validate_fold_length (cells : List CompCell) :
    (validate_fold cells).1.length = cells.length := by
  induction cells with
  | nil => rfl
  | cons c cs ih => simp [validate_fold, ih]

theorem mem_validate_fold {r : ValidationRecord} :
    ∀ {cells : List CompCell}, r ∈ (validate_fold cells).1 →
      ∃ c ∈ cells, r = (validate_step c).1 := by
  intro cells
  induction cells with
  | nil => intro h; simp [validate_fold] at h
  | cons c cs ih =>
    intro h
    rcases List.mem_cons.mp h with h | h
    · exact ⟨c, List.mem_cons_self _ _, h⟩
    · obtain ⟨c', hc', hr⟩ := ih h
      exact ⟨c', List.mem_cons_of_mem _ hc', hr⟩

theorem validate_step_comp_success (c : CompCell) :
    (validate_step c).1.comp_success = c.success := by
  rcases c with ⟨id, mv, s, run⟩
  cases s <;> cases run <;> simp [validate_step, check_validity]

theorem validate_step_invalid_skips (c : CompCell) :
    (validate_step c).1.valid = false → (validate_step c).1.skip_ddebug = true := by
  rcases c with ⟨id, mv, s, run⟩
  cases s with
  | false => intro _; rfl
  | true =>
    cases run with
    | failed => intro _; rfl
    | ok v => cases v <;> simp [validate_step, check_validity]

theorem validate_fold_counts (cells : List CompCell) :
    (validate_fold cells).2.1 + (validate_fold cells).2.2 =
      (cells.filter (fun c => c.success)).length := by
  induction cells with
  | nil => rfl
  | cons c cs ih =>
    rcases c with ⟨id, mv, s, run⟩
    cases s with
    | false => simpa [validate_fold, validate_step] using ih
    | true =>
      cases run with
      | failed =>
        simp only [validate_fold, validate_step, List.filter_cons]
        simp
        omega
      | ok v =>
        cases v <;>
          · simp only [validate_fold, validate_step, check_validity, List.filter_cons]
            simp
            omega

theorem filter_length_lt_of_mem_not {cells : List CompCell} {c : CompCell}
    (hc : c ∈ cells) (hs : c.success = false) :
    (cells.filter (fun c => c.success)).length < cells.length := by
  induction cells with
  | nil => cases hc
  | cons d ds ih =>
    rcases List.mem_cons.mp hc with rfl | hc
    · rw [List.filter_cons, if_neg (by simp [hs])]
      have := List.length_filter_le (fun c : CompCell => c.success) ds
      simp only [List.length_cons]
      omega
    · rw [List.filter_cons]
      by_cases h : d.success = true
      · rw [if_pos (by simp [h])]
        simpa using ih hc
      · rw [if_neg (by simpa using h)]
        have := ih hc
        simp only [List.length_cons]
        omega

/-! ## Claim theorems for the numeric oracle, configuration generator,
compiler wrapper, DD parser, DD runner and validator -/

/-- C2 counterexample: at reference `1.0`, current `1.02` the generated
compare script's deviation is `1/101 ≈ 0.0099`, not approximately
`0.014` — it misses `0.014` by more than `0.004`. -/
theorem deviation_value_counterexample :
    deviation 1 (51 / 50) = 1 / 101 ∧ |deviation 1 (51 / 50) - 14 / 1000| > 4 / 1000 := by
  have h : deviation 1 (51 / 50) = 1 / 101 := by
    rw [deviation, std2, mean2]
    rw [show (1 : ℚ) - 51 / 50 = -(1 / 50) by norm_num, abs_neg,
      show ((1 : ℚ) + 51 / 50) / 2 = 101 / 100 by norm_num]
    rw [show |(1 : ℚ) / 50| = 1 / 50 from abs_of_nonneg (by norm_num),
      show |(101 : ℚ) / 100| = 101 / 100 from abs_of_nonneg (by norm_num)]
    norm_num
  refine ⟨h, ?_⟩
  rw [h, show (1 : ℚ) / 101 - 14 / 1000 = -(207 / 50500) by norm_num, abs_neg,
    show |(207 : ℚ) / 50500| = 207 / 50500 from abs_of_nonneg (by norm_num)]
  norm_num

/-- C2 (amended): the compare script computes
`deviation = np.std([r, c]) / |np.mean([r, c])|` with the population
standard deviation, so for reference `1.0`, current `1.02` the deviation
is `1/101 ≈ 0.0099` (not `0.014`), and with threshold `1e-6` the
comparator exits non-zero (unstable). -/
theorem deviation_one_102_spec :
    deviation 1 (51 / 50) = 1 / 101 ∧ |deviation 1 (51 / 50) - 99 / 10000| < 1 / 10000 ∧
    ddCmp_exit 1 (51 / 50) (1 / 1000000) = 1 := by
  have h : deviation 1 (51 / 50) = 1 / 101 := by
    rw [deviation, std2, mean2]
    rw [show (1 : ℚ) - 51 / 50 = -(1 / 50) by norm_num, abs_neg,
      show ((1 : ℚ) + 51 / 50) / 2 = 101 / 100 by norm_num]
    rw [show |(1 : ℚ) / 50| = 1 / 50 from abs_of_nonneg (by norm_num),
      show |(101 : ℚ) / 100| = 101 / 100 from abs_of_nonneg (by norm_num)]
    norm_num
  refine ⟨h, ?_, ?_⟩
  · rw [h, show (1 : ℚ) / 101 - 99 / 10000 = 1 / 1010000 by norm_num,
      show |(1 : ℚ) / 1010000| = 1 / 1010000 from abs_of_nonneg (by norm_num)]
    norm_num
  · rw [ddCmp_exit, if_neg]
    rw [h]
    norm_num

/-- C3: `find_unstable_lines` returns a strictly ascending (hence
sorted, deduplicated) list whose members are exactly the line numbers
parsed from the `rddmin-cmp/dd.line.exclude` file and from every
`ddmin*/dd.line.include` file; on the two-record scenario it returns
`[16, 17]`. -/
theorem find_unstable_lines_spec :
    (∀ t : DDTree, (find_unstable_lines t).Sorted (· < ·) ∧ (find_unstable_lines t).Nodup ∧
      ∀ n, n ∈ find_unstable_lines t ↔
        ((∃ r ∈ parse_dd_line_file t.rddminExclude, r.line = n) ∨
         (∃ c ∈ t.ddminIncludes, ∃ r ∈ parse_dd_line_file c, r.line = n))) ∧
    find_unstable_lines ⟨some ["0x1: f at src.c:16", "0x2: f at src.c:17"], []⟩ = [16, 17] := by
  constructor
  · intro t
    refine ⟨sortedDedup_sorted _, (sortedDedup_sorted _).imp (fun h => ne_of_lt h), ?_⟩
    intro n
    rw [find_unstable_lines, mem_sortedDedup, ddTreeLines, List.mem_append]
    apply or_congr
    · simp only [List.mem_map]
    · simp only [List.mem_flatten, List.mem_map]
      constructor
      · rintro ⟨l, ⟨c, hc, rfl⟩, hn⟩
        obtain ⟨r, hr, rfl⟩ := List.mem_map.mp hn
        exact ⟨c, hc, r, hr, rfl⟩
      · rintro ⟨c, hc, r, hr, rfl⟩
        exact ⟨(parse_dd_line_file c).map DDLineResult.line, ⟨c, hc, rfl⟩,
          List.mem_map_of_mem _ hr⟩
  · rfl

/-- C5 counterexample: the stored `stderr` field does not distinguish a
timeout from a compiler-reported error — a completed compilation with
exit status 1 and empty compiler stderr stores the same `stderr` (the
empty string) as the timeout result, both with `success = false`. -/
theorem compile_stderr_counterexample :
    (vfc_compile (.completed 1 "" "" false) ("a.out") 0 60).stderr =
      (vfc_compile .timeout ("a.out") 0 60).stderr ∧
    (vfc_compile (.completed 1 "" "" false) ("a.out") 0 60).success = false ∧
    (vfc_compile .timeout ("a.out") 0 60).success = false := by
  refine ⟨?_, ?_, rfl⟩ <;> rfl

/-- C5 (amended): `compile` succeeds iff the process exits 0 and the
output artifact exists; a timeout yields a failure result (not an
exception) and is distinguished from a compiler-reported error in the
stored `error_message` field (`"Compilation timeout"` versus the
compiler's stderr, or `"Binary not created"` when that is empty), while
the `stderr` field is empty in the timeout case. -/
theorem vfc_compile_spec :
    (∀ (rc : Int) (so se path : String) (ex : Bool) (e t : ℚ),
      ((vfc_compile (.completed rc so se ex) path e t).success = true ↔ rc = 0 ∧ ex = true)) ∧
    (∀ (path : String) (e t : ℚ),
      vfc_compile .timeout path e t =
        ⟨false, none, -1, "", "", t, some ("Compilation timeout")⟩) ∧
    (∀ (rc : Int) (so se path : String) (ex : Bool) (e t : ℚ), ¬(rc = 0 ∧ ex = true) →
      (vfc_compile (.completed rc so se ex) path e t).success = false ∧
      (vfc_compile (.completed rc so se ex) path e t).stderr = se ∧
      (vfc_compile (.completed rc so se ex) path e t).error_message =
        some (if se = "" then "Binary not created" else se)) := by
  refine ⟨?_, fun _ _ _ => rfl, ?_⟩
  · intro rc so se path ex e t
    rw [vfc_compile]
    by_cases h : rc = 0 ∧ ex = true
    · rw [if_pos h]
      simpa using h
    · rw [if_neg h]
      simpa using h
  · intro rc so se path ex e t h
    rw [vfc_compile, if_neg h]
    exact ⟨rfl, rfl, rfl⟩

/-- Witness for `vfc_compile_spec` at a concrete failed compilation. -/
theorem vfc_compile_spec_witness :
    (vfc_compile (.completed 1 "" "" false) ("a.out") 0 60).success = false ∧
    (vfc_compile (.completed 1 "" "" false) ("a.out") 0 60).stderr = "" ∧
    (vfc_compile (.completed 1 "" "" false) ("a.out") 0 60).error_message =
      some (if "" = "" then "Binary not created" else "") :=
  vfc_compile_spec.2.2 1 "" "" ("a.out") false 0 60 (by simp)

/-- C7: in `"pairs"` mode `generate_configs` yields `1 + n·(n−1)/2`
configurations for `n` distinct input variables, the baseline
configuration first, and no two pair configurations carry the same
unordered pair of variables. -/
theorem generate_configs_pairs_spec (vars : List String) (h : vars.Nodup) :
    (generate_configs vars ("pairs")).length = 1 + vars.length * (vars.length - 1) / 2 ∧
    (generate_configs vars ("pairs")).head? = some ("baseline_all_double", []) ∧
    (generate_configs vars ("pairs")).tail.Pairwise (fun c d => ¬ c.2.Perm d.2) := by
  have e : generate_configs vars ("pairs") =
      ("baseline_all_double", []) ::
        (pairsOf vars).map (fun p => (p.1 ++ "_" ++ p.2 ++ "_float", [p.1, p.2])) := by
    simp [generate_configs]
  refine ⟨?_, ?_, ?_⟩
  · rw [e]
    simp only [List.length_cons, List.length_map, pairsOf_length, Nat.choose_two_right]
    omega
  · rw [e]
    rfl
  · rw [e]
    simp only [List.tail_cons]
    rw [List.pairwise_map]
    refine (pairsOf_pairwise vars h).imp ?_
    intro p q hpq hperm
    rw [perm_pair_iff] at hperm
    rcases hperm with h' | h'
    · exact hpq.1 h'
    · exact hpq.2 h'

/-- Witness for `generate_configs_pairs_spec` on three variables. -/
theorem generate_configs_pairs_witness :
    (generate_configs (["a", "b", "c"]) ("pairs")).length =
        1 + (["a", "b", "c"] : List String).length *
          ((["a", "b", "c"] : List String).length - 1) / 2 ∧
    (generate_configs (["a", "b", "c"]) ("pairs")).head? = some ("baseline_all_double", []) ∧
    (generate_configs (["a", "b", "c"]) ("pairs")).tail.Pairwise (fun c d => ¬ c.2.Perm d.2) :=
  generate_configs_pairs_spec (["a", "b", "c"]) (by decide)

/-- C8 counterexample: a failed minimizer invocation (here a timeout)
produces a record with `success = false` whose `unstable_lines` key is
absent — it is not the empty set. -/
theorem run_dd_failure_counterexample :
    (run_dd ("rr") DDOutcome.timeout).success = false ∧
    (run_dd ("rr") DDOutcome.timeout).unstable_lines = none ∧
    (run_dd ("rr") DDOutcome.timeout).unstable_lines ≠ some [] := by
  refine ⟨rfl, rfl, ?_⟩
  intro h
  cases h

/-- C8 (amended): one localization record is produced per configured
backend whatever the minimizer outcome; on failure (timeout, exception,
or a failed run with no output tree) the record has `success = false`,
carries an error message, and has no unstable-line field at all (its
absence is what consumers read as an empty set). -/
theorem run_dd_all_spec (backends : List String) (out : String → DDOutcome) :
    (run_dd_all backends out).length = backends.length ∧
    (∀ b ∈ backends, run_dd b (out b) ∈ run_dd_all backends out) ∧
    (∀ (b : String) (o : DDOutcome), (run_dd b o).backend = b) ∧
    (∀ (b : String) (o : DDOutcome), (run_dd b o).success = false →
      (run_dd b o).unstable_lines = none ∧ (run_dd b o).error.isSome = true) := by
  refine ⟨List.length_map _ _, ?_, ?_, ?_⟩
  · intro b hb
    exact List.mem_map_of_mem _ hb
  · intro b o
    cases o with
    | completed rc tr =>
      cases tr with
      | none => rfl
      | some t => by_cases h : rc = 0 <;> simp [run_dd, h]
    | timeout => rfl
    | exc m => rfl
  · intro b o h
    cases o with
    | completed rc tr =>
      cases tr with
      | none => exact ⟨rfl, rfl⟩
      | some t => by_cases hrc : rc = 0 <;> simp [run_dd, hrc] at h
    | timeout => exact ⟨rfl, rfl⟩
    | exc m => exact ⟨rfl, rfl⟩

/-- Witness for `run_dd_all_spec` with the three fixed backends and a
timeout outcome. -/
theorem run_dd_all_spec_witness :
    run_dd ("rr") DDOutcome.timeout ∈
      run_dd_all (["rr", "mca", "cancellation"]) (fun _ => DDOutcome.timeout) ∧
    ((run_dd ("mca") DDOutcome.timeout).unstable_lines = none ∧
      (run_dd ("mca") DDOutcome.timeout).error.isSome = true) :=
  ⟨(run_dd_all_spec (["rr", "mca", "cancellation"]) (fun _ => DDOutcome.timeout)).2.1
      ("rr") (by simp),
   (run_dd_all_spec (["rr", "mca", "cancellation"]) (fun _ => DDOutcome.timeout)).2.2.2
      ("mca") DDOutcome.timeout rfl⟩

/-- C4: every validation record with `valid = false` (compilation
failure, execution failure, NaN or Inf output) has `skip_ddebug = true`;
the delta-debug setup keeps exactly the records with `valid = true` and
`skip_ddebug = false`, so an invalid cell can never reach a per-backend
localization; a NaN run produces the `{valid: false, reason: "NaN",
skip: true}` record of the scenario. -/
theorem validation_invalid_never_localized (cells : List CompCell) :
    (∀ r ∈ (validate_outputs_main cells).validations,
      r.valid = false → r.skip_ddebug = true) ∧
    (∀ r ∈ setup_ddebug_filter (validate_outputs_main cells).validations,
      r.valid = true ∧ r.skip_ddebug = false) ∧
    (∀ c : CompCell, c.success = true → c.run = .ok .nan →
      (validate_step c).1.valid = false ∧ (validate_step c).1.skip_ddebug = true ∧
      (validate_step c).1.validity_reason = some ("NaN")) := by
  refine ⟨?_, ?_, ?_⟩
  · intro r hr hv
    obtain ⟨c, _, rfl⟩ := mem_validate_fold hr
    exact validate_step_invalid_skips c hv
  · intro r hr
    have := List.of_mem_filter hr
    constructor
    · exact (Bool.and_eq_true _ _).mp this |>.1
    · have h2 := (Bool.and_eq_true _ _).mp this |>.2
      simpa using h2
  · intro c h1 h2
    rcases c with ⟨id, mv, s, run⟩
    cases h1
    cases h2
    exact ⟨rfl, rfl, rfl⟩

/-- Witness for `validation_invalid_never_localized` on a one-cell
manifest whose run yields NaN. -/
theorem validation_invalid_never_localized_witness :
    (validate_step ⟨"cell0", [], true, .ok .nan⟩).1.valid = false ∧
    (validate_step ⟨"cell0", [], true, .ok .nan⟩).1.skip_ddebug = true ∧
    (validate_step ⟨"cell0", [], true, .ok .nan⟩).1.validity_reason = some ("NaN") :=
  (validation_invalid_never_localized []).2.2 ⟨"cell0", [], true, .ok .nan⟩ rfl rfl

/-- C10: failed compilations yield `skipped_compilation_failed` records
with `valid = false` and `skip_ddebug = true`, one record per input;
they are counted in neither `valid` nor `invalid`, so
`valid + invalid` is the number of successfully compiled cells, strictly
below `total_tested` whenever any compilation failed. -/
theorem validation_manifest_counts (cells : List CompCell) :
    (validate_outputs_main cells).validations.length = cells.length ∧
    (∀ r ∈ (validate_outputs_main cells).validations, r.comp_success = false →
      r.validation_status = "skipped_compilation_failed" ∧
      r.valid = false ∧ r.skip_ddebug = true) ∧
    (validate_outputs_main cells).valid + (validate_outputs_main cells).invalid =
      (cells.filter (fun c => c.success)).length ∧
    (validate_outputs_main cells).total_tested = cells.length ∧
    ((∃ c ∈ cells, c.success = false) →
      (validate_outputs_main cells).valid + (validate_outputs_main cells).invalid <
        (validate_outputs_main cells).total_tested) := by
  refine ⟨validate_fold_length cells, ?_, validate_fold_counts cells, rfl, ?_⟩
  · intro r hr hv
    obtain ⟨c, _, rfl⟩ := mem_validate_fold hr
    rw [validate_step_comp_success] at hv
    rcases c with ⟨id, mv, s, run⟩
    cases hv
    exact ⟨rfl, rfl, rfl⟩
  · rintro ⟨c, hc, hs⟩
    have := filter_length_lt_of_mem_not hc hs
    calc (validate_outputs_main cells).valid + (validate_outputs_main cells).invalid
        = (cells.filter (fun c => c.success)).length := validate_fold_counts cells
      _ < cells.length := this

/-- Witness for `validation_manifest_counts` on a manifest with one
failed and one successful compilation. -/
theorem validation_manifest_counts_witness :
    (validate_outputs_main
        ([⟨"bad", [], false, .failed⟩, ⟨"good", [], true, .ok (.finite 1)⟩])).valid +
      (validate_outputs_main
        ([⟨"bad", [], false, .failed⟩, ⟨"good", [], true, .ok (.finite 1)⟩])).invalid <
    (validate_outputs_main
        ([⟨"bad", [], false, .failed⟩, ⟨"good", [], true, .ok (.finite 1)⟩])).total_tested :=
  (validation_manifest_counts _).2.2.2.2
    ⟨⟨"bad", [], false, .failed⟩, List.mem_cons_self _ _, rfl⟩

/-! ## Source mutation (`src/scripts/utils/source_parser.py`, `SourceModifier`)

`change_variable_types` applies, per line and per variable `v`, the two
substitutions
`re.sub(r'\b(float|double)\s+v\s*([,;])', target + ' ' + v + '\2', line)` and
`re.sub(r'\b(float|double)\s+v\s*=',    target + ' ' + v + ' =', line)`;
`verify_modifications` then searches the modified text for
`\b{target}\s+{v}\b`.  The embedding scans character by character as
`re.sub`/`re.search` do, with greedy runs; greedy maximal munch agrees
with the regex backtracking semantics whenever `v` does not begin with a
whitespace character (variable names are identifiers).  The two type
keywords start with distinct characters, so trying `float` before
`double` is the alternation faithfully. -/

/-- Python `\b` at the position between `prev` (none at string start)
and `s`: word-membership differs on the two sides. -/
def atBoundary (prev : Option Char) (s : List Char) : Bool :=
  (match prev with | none => false | some c => isWordChar c) !=
    (match s with | [] => false | c :: _ => isWordChar c)

/-- The alternation `(float|double)`: the matched keyword and the rest. -/
def matchTypeKw (s : List Char) : Option (List Char × List Char) :=
  match matchLit (("float").toList) s with
  | some r => some (("float").toList, r)
  | none =>
    match matchLit (("double").toList) s with
    | some r => some (("double").toList, r)
    | none => none

/-- Match `\b(float|double)\s+{v}\s*([t1t2])` at one position; returns
the terminator character and the rest of the input after the match. -/
def matchDecl (t1 t2 : Char) (v : List Char) (prev : Option Char) (s : List Char) :
    Option (Char × List Char) :=
  if atBoundary prev s = false then none
  else
    match matchTypeKw s with
    | none => none
    | some (_, s1) =>
      match takeWhile1 isPySpace s1 with
      | none => none
      | some (_, s2) =>
        match matchLit v s2 with
        | none => none
        | some s3 =>
          match s3.dropWhile isPySpace with
          | c :: rest => if c = t1 ∨ c = t2 then some (c, rest) else none
          | [] => none

/-- `re.sub` scan for pattern 1 (`terminator , or ;`), fuel-bounded; each
step consumes at least one character, so fuel = input length suffices. -/
def subP1 (v tgt : List Char) : Nat → Option Char → List Char → List Char
  | _, _, [] => []
  | 0, _, s => s
  | fuel + 1, prev, c :: cs =>
    match matchDecl ',' ';' v prev (c :: cs) with
    | some (term, rest) => tgt ++ ' ' :: (v ++ term :: subP1 v tgt fuel (some term) rest)
    | none => c :: subP1 v tgt fuel (some c) cs

/-- `re.sub` scan for pattern 2 (`=` form, replacement `target v =`). -/
def subP2 (v tgt : List Char) : Nat → Option Char → List Char → List Char
  | _, _, [] => []
  | 0, _, s => s
  | fuel + 1, prev, c :: cs =>
    match matchDecl '=' '=' v prev (c :: cs) with
    | some (_, rest) => tgt ++ ' ' :: (v ++ ' ' :: '=' :: subP2 v tgt fuel (some '=') rest)
    | none => c :: subP2 v tgt fuel (some c) cs

/-- Pattern-1 substitution over one line. -/
def subP1Line (v tgt line : List Char) : List Char := subP1 v tgt line.length none line

/-- Pattern-2 substitution over one line. -/
def subP2Line (v tgt line : List Char) : List Char := subP2 v tgt line.length none line

/-- The per-line body of `change_variable_types`: for each variable in
order, pattern 1 then pattern 2. -/
def mutate_line (variables_to_modify : List String) (target_type : String)
    (line : List Char) : List Char :=
  variables_to_modify.foldl
    (fun ln v => subP2Line (v.toList) (target_type.toList)
      (subP1Line (v.toList) (target_type.toList) ln)) line

/-- Python `str.split('\n')`. -/
def splitNL : List Char → List (List Char)
  | [] => [[]]
  | c :: cs =>
    if c = '\n' then [] :: splitNL cs
    else
      match splitNL cs with
      | [] => [[c]]
      | h :: t => (c :: h) :: t

/-- Python `'\n'.join(...)`. -/
def joinNL : List (List Char) → List Char
  | [] => []
  | [l] => l
  | l :: ls => l ++ '\n' :: joinNL ls

/-- `SourceModifier.change_variable_types(variables_to_modify,
target_type)`: identity on an empty variable list, else the per-line
substitutions joined back with newlines. -/
def change_variable_types (source_code : String) (variables_to_modify : List String)
    (target_type : String) : String :=
  if variables_to_modify.isEmpty then source_code
  else
    (joinNL ((splitNL source_code.toList).map
      (mutate_line variables_to_modify target_type))).asString

/-- One attempt of `\b{ty}\s+{v}\b` at a position of the modified text. -/
def matchVerifyAt (ty v : List Char) (prev : Option Char) (s : List Char) : Bool :=
  atBoundary prev s &&
    (match matchLit ty s with
     | none => false
     | some s1 =>
       match takeWhile1 isPySpace s1 with
       | none => false
       | some (ws, s2) =>
         match matchLit v s2 with
         | none => false
         | some s3 =>
           (isWordChar ((ty ++ ws ++ v).getLastD ' ')) !=
             (match s3 with | [] => false | c :: _ => isWordChar c))

/-- `re.search` of `\b{ty}\s+{v}\b`: try every position. -/
def searchVerify (ty v : List Char) : Option Char → List Char → Bool
  | prev, [] => matchVerifyAt ty v prev []
  | prev, c :: cs => matchVerifyAt ty v prev (c :: cs) || searchVerify ty v (some c) cs

/-- `SourceModifier.verify_modifications(expected_vars, expected_type)`
run against the modified text: the failing variables in input order and
the all-succeeded flag. -/
def verify_modifications (modified_code : String) (expected_vars : List String)
    (expected_type : String) : Bool × List String :=
  let failed := expected_vars.filter
    (fun v => !(searchVerify (expected_type.toList) (v.toList) none (modified_code.toList)))
  (failed.isEmpty, failed)

/-- A variable name as the mutator assumes it: a nonempty run of word
characters. -/
def isIdent (v : List Char) : Bool := !v.isEmpty && v.all isWordChar

/-- C1 counterexample: for the source `double a, b;` and variable list
`['b']`, the mutation regexes never match (`b` is not the first
declarator after the type keyword), the text is returned unchanged, and
verification reports `(false, ['b'])`, not `(true, [])`. -/
theorem mutate_verify_counterexample :
    change_variable_types ("double a, b;") (["b"]) ("float") = "double a, b;" ∧
    verify_modifications
        (change_variable_types ("double a, b;") (["b"]) ("float")) (["b"]) ("float") =
      (false, ["b"]) := by
  exact ⟨rfl, rfl⟩

/-- C6 counterexample: mutating `a` in `double a, b;` rewrites the
shared type keyword of the comma-grouped declaration, so the declaration
of the distinct variable `b` on the same line is altered — its declared
type silently becomes `float`. -/
theorem mutate_frame_counterexample :
    change_variable_types ("double a, b;") (["a"]) ("float") = "float a, b;" ∧
    ("float a, b;" : String) ≠ "double a, b;" := by
  refine ⟨rfl, ?_⟩
  decide

/-! ## Lemmas about the mutation scan -/

theorem space_not_word {c : Char} (h : isPySpace c = true) : isWordChar c = false := by
  simp only [isPySpace, Bool.or_eq_true, decide_eq_true_eq] at h
  rcases h with ((((h | h) | h) | h) | h) | h <;> subst h <;> decide

theorem word_not_space {c : Char} (h : isWordChar c = true) : isPySpace c = false := by
  cases hc : isPySpace c
  · rfl
  · rw [space_not_word hc] at h
    cases h

theorem matchLit_append (l r : List Char) : matchLit l (l ++ r) = some r := by
  induction l with
  | nil => rfl
  | cons c cs ih => simp [matchLit, ih]

theorem matchLit_suffix : ∀ (l s r : List Char), matchLit l s = some r → ∃ pre, s = pre ++ r := by
  intro l
  induction l with
  | nil =>
    intro s r h
    rw [matchLit] at h
    exact ⟨[], by simpa using Option.some.inj h⟩
  | cons c cs ih =>
    intro s r h
    cases s with
    | nil => exact absurd h (by simp [matchLit])
    | cons d ds =>
      rw [matchLit] at h
      by_cases hcd : c = d
      · rw [if_pos hcd] at h
        obtain ⟨pre, hp⟩ := ih ds r h
        exact ⟨d :: pre, by simp [hp]⟩
      · rw [if_neg hcd] at h
        cases h

theorem isIdent_cons {v : List Char} (h : isIdent v = true) :
    ∃ c cs, v = c :: cs ∧ isWordChar c = true ∧ ∀ d ∈ v, isWordChar d = true := by
  cases v with
  | nil => exact absurd h (by decide)
  | cons c cs =>
    simp only [isIdent, Bool.and_eq_true, List.all_eq_true] at h
    exact ⟨c, cs, rfl, h.2 c (List.mem_cons_self _ _), h.2⟩

/-- Word tail: matching a different identifier against `v` followed by a
non-word character either fails or leaves a word character first. -/
theorem matchLit_ident_tail :
    ∀ (w v : List Char), isIdent w = true → isIdent v = true → w ≠ v →
      ∀ (d : Char) (r s3 : List Char), isWordChar d = false →
        matchLit w (v ++ d :: r) = some s3 →
        ∃ c cs, s3 = c :: cs ∧ isWordChar c = true := by
  intro w
  induction w with
  | nil => intro v hw; exact absurd hw (by decide)
  | cons a w' ih =>
    intro v hw hv hne d r s3 hd h
    obtain ⟨a0, w0, he, haw, hallw⟩ := isIdent_cons hw
    cases he
    cases v with
    | nil =>
      simp only [List.nil_append, matchLit] at h
      by_cases had : a = d
      · exact absurd (had ▸ haw) (by simp [hd])
      · rw [if_neg had] at h; cases h
    | cons b v' =>
      obtain ⟨b0, v0, hbe, hbw, hallv⟩ := isIdent_cons hv
      cases hbe
      simp only [List.cons_append, matchLit] at h
      by_cases hab : a = b
      · rw [if_pos hab] at h
        subst hab
        have hne' : w' ≠ v' := fun he' => hne (by rw [he'])
        cases v' with
        | nil =>
          cases w' with
          | nil => exact absurd rfl hne'
          | cons a1 w1 =>
            simp only [List.nil_append, matchLit] at h
            by_cases ha1 : a1 = d
            · have : isWordChar a1 = true :=
                hallw a1 (List.mem_cons_of_mem _ (List.mem_cons_self _ _))
              exact absurd (ha1 ▸ this) (by simp [hd])
            · rw [if_neg ha1] at h; cases h
        | cons b1 v1 =>
          cases w' with
          | nil =>
            rw [matchLit] at h
            refine ⟨b1, v1 ++ d :: r, by simpa using h.symm, ?_⟩
            exact hallv b1 (List.mem_cons_of_mem _ (List.mem_cons_self _ _))
          | cons a1 w1 =>
            have hw1 : isIdent (a1 :: w1) = true := by
              simp only [isIdent, Bool.and_eq_true, List.all_eq_true]
              exact ⟨rfl, fun x hx => hallw x (List.mem_cons_of_mem _ hx)⟩
            have hv1 : isIdent (b1 :: v1) = true := by
              simp only [isIdent, Bool.and_eq_true, List.all_eq_true]
              exact ⟨rfl, fun x hx => hallv x (List.mem_cons_of_mem _ hx)⟩
            exact ih (b1 :: v1) hw1 hv1 hne' d r s3 hd h
      · rw [if_neg hab] at h; cases h

/-- No match where both neighbour characters are word characters: the
leading `\b` fails. -/
theorem matchDecl_none_word {t1 t2 : Char} {w : List Char} {p c : Char} {s : List Char}
    (hp : isWordChar p = true) (hc : isWordChar c = true) :
    matchDecl t1 t2 w (some p) (c :: s) = none := by
  rw [matchDecl, if_pos]
  rw [atBoundary, hp, hc]
  rfl

/-- No match where the first character is neither `f` nor `d`: the
type-keyword alternation fails. -/
theorem matchDecl_none_head {t1 t2 : Char} {w : List Char} {prev : Option Char} {c : Char}
    {s : List Char} (hf : c ≠ 'f') (hd : c ≠ 'd') :
    matchDecl t1 t2 w prev (c :: s) = none := by
  have hkw : matchTypeKw (c :: s) = none := by
    rw [matchTypeKw]
    rw [show matchLit (("float").toList) (c :: s) = none by
      simp only [matchLit]
      rw [if_neg (fun h => hf h.symm)]]
    rw [show matchLit (("double").toList) (c :: s) = none by
      simp only [matchLit]
      rw [if_neg (fun h => hd h.symm)]]
  rw [matchDecl]
  by_cases hb : atBoundary prev (c :: s) = false
  · rw [if_pos hb]
  · rw [if_neg hb, hkw]

/-- No match on the empty remainder. -/
theorem matchDecl_none_nil {t1 t2 : Char} {w : List Char} {prev : Option Char} :
    matchDecl t1 t2 w prev [] = none := by
  rw [matchDecl]
  by_cases hb : atBoundary prev [] = false
  · rw [if_pos hb]
  · rw [if_neg hb]
    rfl

/-- After the type keyword the regex requires `\s+`; scanning from the
start of an identifier, whatever keyword prefix the identifier may have,
the next character is a word character or the closing `;`, never a
space, so no match can start at an identifier. -/
theorem matchDecl_none_ident_start {t1 t2 : Char} {w v : List Char} {prev : Option Char}
    (hv : isIdent v = true) :
    matchDecl t1 t2 w prev (v ++ [';']) = none := by
  rw [matchDecl]
  by_cases hb : atBoundary prev (v ++ [';']) = false
  · rw [if_pos hb]
  · rw [if_neg hb]
    cases hkw : matchTypeKw (v ++ [';']) with
    | none => rfl
    | some pr =>
      obtain ⟨kw, s1⟩ := pr
      have hsuf : ∃ pre, v ++ [';'] = pre ++ s1 := by
        rw [matchTypeKw] at hkw
        cases hf : matchLit (("float").toList) (v ++ [';']) with
        | some r =>
          rw [hf] at hkw
          cases hkw
          exact matchLit_suffix _ _ _ hf
        | none =>
          rw [hf] at hkw
          cases hd : matchLit (("double").toList) (v ++ [';']) with
          | some r =>
            rw [hd] at hkw
            cases hkw
            exact matchLit_suffix _ _ _ hd
          | none => rw [hd] at hkw; cases hkw
      have htw : takeWhile1 isPySpace s1 = none := by
        obtain ⟨pre, hpre⟩ := hsuf
        cases s1 with
        | nil => rfl
        | cons c cs =>
          have hc : c ∈ v ++ [';'] := by
            rw [hpre]
            exact List.mem_append_right _ (List.mem_cons_self _ _)
          have hcs : isPySpace c = false := by
            rcases List.mem_append.mp hc with hcv | hcsemi
            · obtain ⟨-, -, -, -, hall⟩ := isIdent_cons hv
              exact word_not_space (hall c hcv)
            · rw [List.mem_singleton.mp hcsemi]
              rfl
          rw [takeWhile1, List.takeWhile_cons, hcs]
          rfl
      simp [htw]

/-- The character seen by `\b` when the scan stands right after the
prefix `pre` of the text. -/
def prevAt (prev : Option Char) (pre : List Char) : Option Char :=
  match pre with
  | [] => prev
  | c :: r => some (r.getLastD c)

theorem prevAt_cons (prev : Option Char) (c : Char) (pre : List Char) :
    prevAt prev (c :: pre) = prevAt (some c) pre := by
  cases pre with
  | nil => rfl
  | cons d r =>
    show some ((d :: r).getLastD c) = some (r.getLastD d)
    rw [List.getLastD_cons]

theorem getLastD_cons_mem (a : Char) : ∀ l : List Char, l.getLastD a ∈ a :: l := by
  intro l
  induction l generalizing a with
  | nil => exact List.mem_cons_self _ _
  | cons b l' ih =>
    rw [List.getLastD_cons]
    exact List.mem_cons_of_mem _ (ih b)

theorem subP1_nil (v tgt : List Char) (fuel : Nat) (prev : Option Char) :
    subP1 v tgt fuel prev [] = [] := by
  cases fuel <;> rfl

theorem subP2_nil (v tgt : List Char) (fuel : Nat) (prev : Option Char) :
    subP2 v tgt fuel prev [] = [] := by
  cases fuel <;> rfl

/-- If pattern 1 matches nowhere in `s` (at any split point, with the
correct preceding character), the substitution scan is the identity,
whatever the fuel. -/
theorem subP1_id {v tgt : List Char} :
    ∀ (s : List Char) (prev : Option Char) (fuel : Nat),
      (∀ pre suf, pre ++ suf = s → matchDecl ',' ';' v (prevAt prev pre) suf = none) →
      subP1 v tgt fuel prev s = s := by
  intro s
  induction s with
  | nil => intro prev fuel _; exact subP1_nil _ _ _ _
  | cons c cs ih =>
    intro prev fuel H
    cases fuel with
    | zero => rfl
    | succ f =>
      have h0 : matchDecl ',' ';' v prev (c :: cs) = none := H [] (c :: cs) rfl
      rw [subP1, h0]
      show c :: subP1 v tgt f (some c) cs = c :: cs
      congr 1
      refine ih (some c) f ?_
      intro pre suf hps
      have := H (c :: pre) suf (by rw [List.cons_append, hps])
      rwa [prevAt_cons] at this

/-- Pattern-2 analogue of `subP1_id`. -/
theorem subP2_id {v tgt : List Char} :
    ∀ (s : List Char) (prev : Option Char) (fuel : Nat),
      (∀ pre suf, pre ++ suf = s → matchDecl '=' '=' v (prevAt prev pre) suf = none) →
      subP2 v tgt fuel prev s = s := by
  intro s
  induction s with
  | nil => intro prev fuel _; exact subP2_nil _ _ _ _
  | cons c cs ih =>
    intro prev fuel H
    cases fuel with
    | zero => rfl
    | succ f =>
      have h0 : matchDecl '=' '=' v prev (c :: cs) = none := H [] (c :: cs) rfl
      rw [subP2, h0]
      show c :: subP2 v tgt f (some c) cs = c :: cs
      congr 1
      refine ih (some c) f ?_
      intro pre suf hps
      have := H (c :: pre) suf (by rw [List.cons_append, hps])
      rwa [prevAt_cons] at this

/-- The two spellings the mutation regex accepts for the old type. -/
def isTypeKw (kw : List Char) : Prop :=
  kw = ("float").toList ∨ kw = ("double").toList

theorem takeWhile1_space_one {c : Char} (hc : isPySpace c = false) (s : List Char) :
    takeWhile1 isPySpace (' ' :: c :: s) = some ([' '], c :: s) := by
  have ht : List.takeWhile isPySpace (' ' :: c :: s) = [' '] := by
    rw [List.takeWhile_cons, if_pos (by decide), List.takeWhile_cons, if_neg (by simp [hc])]
  have hd : List.dropWhile isPySpace (' ' :: c :: s) = c :: s := by
    rw [List.dropWhile_cons, if_pos (by decide), List.dropWhile_cons, if_neg (by simp [hc])]
  rw [takeWhile1, ht, hd]
  rfl

theorem matchTypeKw_float (r : List Char) :
    matchTypeKw (("float").toList ++ r) = some (("float").toList, r) := by
  rw [matchTypeKw, matchLit_append]

theorem matchTypeKw_double (r : List Char) :
    matchTypeKw (("double").toList ++ r) = some (("double").toList, r) := by
  rw [matchTypeKw]
  rw [show matchLit (("float").toList) (("double").toList ++ r) = none by
    simp [matchLit]]
  rw [matchLit_append]

theorem matchTypeKw_line {kw : List Char} (hkw : isTypeKw kw) (r : List Char) :
    matchTypeKw (kw ++ r) = some (kw, r) := by
  rcases hkw with rfl | rfl
  · exact matchTypeKw_float r
  · exact matchTypeKw_double r

theorem atBoundary_line {kw : List Char} (hkw : isTypeKw kw) (r : List Char) :
    atBoundary none (kw ++ r) = true := by
  rcases hkw with rfl | rfl <;> rfl

/-- Pattern 1 matches the whole declaration `kw v;` when the scanned
variable is exactly `v`. -/
theorem matchDecl_start_self {v kw : List Char} (hv : isIdent v = true) (hkw : isTypeKw kw) :
    matchDecl ',' ';' v none (kw ++ ' ' :: v ++ [';']) = some (';', []) := by
  obtain ⟨c, cs, he, hcw, hall⟩ := isIdent_cons hv
  have hline : kw ++ ' ' :: v ++ [';'] = kw ++ (' ' :: c :: (cs ++ [';'])) := by
    rw [List.append_assoc, List.cons_append, he, List.cons_append]
  rw [hline]
  rw [matchDecl, if_neg (by rw [atBoundary_line hkw]; simp)]
  simp only [matchTypeKw_line hkw, takeWhile1_space_one (word_not_space hcw)]
  rw [show c :: (cs ++ [';']) = v ++ [';'] by rw [he]; rfl]
  simp only [matchLit_append]
  rfl

/-- Pattern `t1/t2` does not match at the start of the declaration
`kw v;` when the scanned variable differs from `v`, nor (for any
variable) when `;` is not one of the accepted terminators. -/
theorem matchDecl_start_other {t1 t2 : Char} {w v kw : List Char}
    (hw : isIdent w = true) (hv : isIdent v = true) (hkw : isTypeKw kw)
    (ht1 : isWordChar t1 = false) (ht2 : isWordChar t2 = false)
    (hcase : w ≠ v ∨ (t1 ≠ ';' ∧ t2 ≠ ';')) :
    matchDecl t1 t2 w none (kw ++ ' ' :: v ++ [';']) = none := by
  obtain ⟨c, cs, he, hcw, hall⟩ := isIdent_cons hv
  have hline : kw ++ ' ' :: v ++ [';'] = kw ++ (' ' :: c :: (cs ++ [';'])) := by
    rw [List.append_assoc, List.cons_append, he, List.cons_append]
  rw [hline]
  rw [matchDecl]
  by_cases hb : atBoundary none (kw ++ (' ' :: c :: (cs ++ [';']))) = false
  · rw [if_pos hb]
  · rw [if_neg hb]
    simp only [matchTypeKw_line hkw, takeWhile1_space_one (word_not_space hcw)]
    rw [show c :: (cs ++ [';']) = v ++ [';'] by rw [he]; rfl]
    by_cases hwv : w = v
    · subst hwv
      rcases hcase with hne | ⟨h1, h2⟩
      · exact absurd rfl hne
      · simp only [matchLit_append]
        rw [show List.dropWhile isPySpace [';'] = [';'] from rfl]
        show (if (';' = t1 ∨ ';' = t2) then some ((';' : Char), ([] : List Char)) else none) = none
        rw [if_neg]
        rintro (hc1 | hc2)
        · exact h1 hc1.symm
        · exact h2 hc2.symm
    · cases hm : matchLit w (v ++ [';']) with
      | none => simp [hm]
      | some s3 =>
        obtain ⟨c3, cs3, rfl, hc3⟩ :=
          matchLit_ident_tail w v hw hv hwv ';' [] s3 (by decide) (by simpa using hm)
        simp only [hm]
        rw [show List.dropWhile isPySpace (c3 :: cs3) = c3 :: cs3 by
          rw [List.dropWhile_cons, if_neg (by simp [word_not_space hc3])]]
        show (if (c3 = t1 ∨ c3 = t2) then some (c3, cs3) else none) = none
        rw [if_neg]
        rintro (hc1 | hc2)
        · rw [← hc1] at ht1
          rw [hc3] at ht1
          cases ht1
        · rw [← hc2] at ht2
          rw [hc3] at ht2
          cases ht2

theorem getLastD_append (l1 : List Char) (c2 : Char) (l2 : List Char) :
    ∀ d, (l1 ++ c2 :: l2).getLastD d = l2.getLastD c2 := by
  induction l1 with
  | nil => intro d; rw [List.nil_append, List.getLastD_cons]
  | cons a l1' ih => intro d; rw [List.cons_append, List.getLastD_cons, ih]

/-- Every split point of the declaration line `kw v;` fails to match
pattern `t1/t2` when the scanned variable differs from `v` or `;` is
not an accepted terminator. -/
theorem matchDecl_none_line {t1 t2 : Char} {w v kw : List Char}
    (hw : isIdent w = true) (hv : isIdent v = true) (hkw : isTypeKw kw)
    (ht1 : isWordChar t1 = false) (ht2 : isWordChar t2 = false)
    (hcase : w ≠ v ∨ (t1 ≠ ';' ∧ t2 ≠ ';')) :
    ∀ pre suf, pre ++ suf = kw ++ ' ' :: v ++ [';'] →
      matchDecl t1 t2 w (prevAt none pre) suf = none := by
  have hkwall : ∀ c ∈ kw, isWordChar c = true := by
    rcases hkw with rfl | rfl <;> decide
  have hvall : ∀ c ∈ v, isWordChar c = true :=
    (isIdent_cons hv).choose_spec.choose_spec.2.2
  intro pre suf h
  rw [List.append_assoc, List.cons_append] at h
  rcases List.append_eq_append_iff.mp h with ⟨a, ha1, ha2⟩ | ⟨b, hb1, hb2⟩
  · cases pre with
    | nil =>
      have ha : a = kw := by simpa using ha1.symm
      subst ha
      rw [ha2]
      have hother := matchDecl_start_other hw hv hkw ht1 ht2 hcase
      rw [List.append_assoc, List.cons_append] at hother
      exact hother
    | cons p pr =>
      have hpw : isWordChar (pr.getLastD p) = true := by
        refine hkwall _ ?_
        rw [ha1]
        exact List.mem_append_left _ (getLastD_cons_mem p pr)
      cases a with
      | nil =>
        rw [List.nil_append] at ha2
        rw [ha2]
        exact matchDecl_none_head (by decide) (by decide)
      | cons q a' =>
        have hqw : isWordChar q = true := by
          refine hkwall q ?_
          rw [ha1]
          exact List.mem_append_right _ (List.mem_cons_self _ _)
        rw [ha2, List.cons_append]
        exact matchDecl_none_word hpw hqw
  · cases b with
    | nil =>
      rw [List.nil_append] at hb2
      rw [← hb2]
      exact matchDecl_none_head (by decide) (by decide)
    | cons b0 b' =>
      rw [List.cons_append] at hb2
      injection hb2 with hb0 hrest
      subst hb0
      rcases List.append_eq_append_iff.mp hrest with ⟨a2, ha21, ha22⟩ | ⟨c2, hc21, hc22⟩
      · cases a2 with
        | nil =>
          rw [List.nil_append] at ha22
          rw [← ha22]
          exact matchDecl_none_head (by decide) (by decide)
        | cons x a2' =>
          rw [List.cons_append] at ha22
          injection ha22 with hx hrest2
          rcases List.append_eq_nil.mp hrest2.symm with ⟨-, h2⟩
          rw [h2]
          exact matchDecl_none_nil
      · cases c2 with
        | nil =>
          rw [List.nil_append] at hc22
          rw [hc22]
          exact matchDecl_none_head (by decide) (by decide)
        | cons y c2' =>
          have hyw : isWordChar y = true := by
            refine hvall y ?_
            rw [hc21]
            exact List.mem_append_right _ (List.mem_cons_self _ _)
          cases b' with
          | nil =>
            have hveq : v = y :: c2' := by simpa using hc21
            rw [hc22, show y :: c2' ++ [';'] = v ++ [';'] by rw [hveq]]
            exact matchDecl_none_ident_start hv
          | cons z b'' =>
            have hzw : isWordChar (b''.getLastD z) = true := by
              refine hvall _ ?_
              rw [hc21]
              exact List.mem_append_left _ (getLastD_cons_mem z b'')
            have hpa : prevAt none pre = some (b''.getLastD z) := by
              rw [hb1]
              rcases hkw with rfl | rfl
              · show some ((['l', 'o', 'a', 't'] ++ ' ' :: z :: b'').getLastD 'f') =
                  some (b''.getLastD z)
                rw [getLastD_append, List.getLastD_cons]
              · show some ((['o', 'u', 'b', 'l', 'e'] ++ ' ' :: z :: b'').getLastD 'd') =
                  some (b''.getLastD z)
                rw [getLastD_append, List.getLastD_cons]
            rw [hpa, hc22, List.cons_append]
            exact matchDecl_none_word hzw hyw

theorem subP1_cons_step (v tgt : List Char) (f : Nat) (prev : Option Char) (c : Char)
    (cs : List Char) :
    subP1 v tgt (f + 1) prev (c :: cs) =
      match matchDecl ',' ';' v prev (c :: cs) with
      | some (term, rest) => tgt ++ ' ' :: (v ++ term :: subP1 v tgt f (some term) rest)
      | none => c :: subP1 v tgt f (some c) cs := rfl

/-- When the whole remaining input is one pattern-1 match, the scan
replaces it and stops. -/
theorem subP1_run_match {v tgt : List Char} {s : List Char} {prev : Option Char} {term : Char}
    (hm : matchDecl ',' ';' v prev s = some (term, [])) (hs : s ≠ []) :
    subP1 v tgt s.length prev s = tgt ++ ' ' :: (v ++ [term]) := by
  cases s with
  | nil => exact absurd rfl hs
  | cons c cs =>
    rw [List.length_cons, subP1_cons_step, hm]
    show tgt ++ ' ' :: (v ++ term :: subP1 v tgt cs.length (some term) []) =
      tgt ++ ' ' :: (v ++ [term])
    rw [subP1_nil]

/-- Mutating `v` on its own declaration line `kw v;` rewrites it to
`tgt v;`. -/
theorem subP1Line_self {v kw tgt : List Char} (hv : isIdent v = true) (hkw : isTypeKw kw) :
    subP1Line v tgt (kw ++ ' ' :: v ++ [';']) = tgt ++ ' ' :: v ++ [';'] := by
  rw [subP1Line]
  rw [subP1_run_match (matchDecl_start_self hv hkw)
    (by rcases hkw with rfl | rfl <;> simp)]
  rw [List.append_assoc, List.cons_append]

/-- Mutating a different variable leaves the declaration line `kw v;`
byte-identical. -/
theorem subP1Line_other {w v kw tgt : List Char} (hw : isIdent w = true)
    (hv : isIdent v = true) (hkw : isTypeKw kw) (hne : w ≠ v) :
    subP1Line w tgt (kw ++ ' ' :: v ++ [';']) = kw ++ ' ' :: v ++ [';'] :=
  subP1_id _ none _
    (matchDecl_none_line hw hv hkw (by decide) (by decide) (Or.inl hne))

/-- The initializer-form pattern never matches a `;`-terminated
declaration line, for any scanned variable. -/
theorem subP2Line_any {w v kw tgt : List Char} (hw : isIdent w = true)
    (hv : isIdent v = true) (hkw : isTypeKw kw) :
    subP2Line w tgt (kw ++ ' ' :: v ++ [';']) = kw ++ ' ' :: v ++ [';'] :=
  subP2_id _ none _
    (matchDecl_none_line hw hv hkw (by decide) (by decide)
      (Or.inr ⟨by decide, by decide⟩))

theorem string_toList_ne {w v : String} (h : w ≠ v) : w.toList ≠ v.toList := by
  intro he
  refine h ?_
  cases w
  cases v
  exact congrArg String.mk (by simpa [String.toList] using he)

/-- Processing the whole variable list over the declaration line
`kw v;`: the line ends up retyped to the target iff `v` was requested,
and is untouched otherwise. -/
theorem mutate_line_decl (vars : List String) (v : String) (tgtS : String) :
    ∀ (kw : List Char), isIdent (v.toList) = true → isTypeKw kw →
      isTypeKw (tgtS.toList) → (∀ w ∈ vars, isIdent (w.toList) = true) →
      mutate_line vars tgtS (kw ++ ' ' :: v.toList ++ [';']) =
        (if v ∈ vars then tgtS.toList else kw) ++ ' ' :: v.toList ++ [';'] := by
  induction vars with
  | nil =>
    intro kw hv hkw htgt hall
    simp [mutate_line]
  | cons w ws ih =>
    intro kw hv hkw htgt hall
    have hw : isIdent (w.toList) = true := hall w (List.mem_cons_self _ _)
    have hall' : ∀ u ∈ ws, isIdent (u.toList) = true :=
      fun u hu => hall u (List.mem_cons_of_mem _ hu)
    rw [mutate_line, List.foldl_cons]
    by_cases hwv : w = v
    · subst hwv
      rw [subP1Line_self hv hkw, subP2Line_any hw hv htgt]
      have := ih (tgtS.toList) hv htgt htgt hall'
      rw [mutate_line] at this
      rw [this]
      rw [if_pos (List.mem_cons_self _ _), ite_self]
    · rw [subP1Line_other hw hv hkw (string_toList_ne hwv),
        subP2Line_any hw hv hkw]
      have := ih kw hv hkw htgt hall'
      rw [mutate_line] at this
      rw [this]
      by_cases hm : v ∈ ws
      · rw [if_pos hm, if_pos (List.mem_cons_of_mem _ hm)]
      · rw [if_neg hm, if_neg (by
          intro hc
          rcases List.mem_cons.mp hc with hc | hc
          · exact hwv hc.symm
          · exact hm hc)]

/-- The verification pattern matches at the occurrence written by the
mutator, provided the preceding character is not a word character. -/
theorem matchVerifyAt_occ {tgt v : List Char} {prev : Option Char} (b : List Char)
    (hv : isIdent v = true) (htgt : isTypeKw tgt)
    (hprev : prev = none ∨ ∃ p, prev = some p ∧ isWordChar p = false) :
    matchVerifyAt tgt v prev (tgt ++ (' ' :: (v ++ ';' :: b))) = true := by
  obtain ⟨c, cs, he, hcw, hall⟩ := isIdent_cons hv
  have hbnd : atBoundary prev (tgt ++ (' ' :: (v ++ ';' :: b))) = true := by
    have hhead : ∃ r, tgt ++ (' ' :: (v ++ ';' :: b)) = 'f' :: r ∨
        tgt ++ (' ' :: (v ++ ';' :: b)) = 'd' :: r := by
      rcases htgt with rfl | rfl
      · exact ⟨_, Or.inl rfl⟩
      · exact ⟨_, Or.inr rfl⟩
    obtain ⟨r, hr | hr⟩ := hhead
    · rw [hr]
      rcases hprev with rfl | ⟨p, rfl, hp⟩
      · rfl
      · show (isWordChar p != isWordChar 'f') = true
        rw [hp]
        rfl
    · rw [hr]
      rcases hprev with rfl | ⟨p, rfl, hp⟩
      · rfl
      · show (isWordChar p != isWordChar 'd') = true
        rw [hp]
        rfl
  rw [matchVerifyAt, hbnd, Bool.true_and]
  simp only [matchLit_append]
  rw [show v ++ ';' :: b = c :: (cs ++ ';' :: b) by rw [he]; rfl]
  simp only [takeWhile1_space_one (word_not_space hcw)]
  rw [show c :: (cs ++ ';' :: b) = v ++ ';' :: b by rw [he]; rfl]
  simp only [matchLit_append]
  have hlast : (tgt ++ [' '] ++ v).getLastD ' ' = cs.getLastD c := by
    rw [he, List.append_assoc]
    rw [show [' '] ++ c :: cs = ' ' :: c :: cs from rfl]
    cases tgt with
    | nil => rw [List.nil_append, List.getLastD_cons, List.getLastD_cons]
    | cons t0 ts =>
      rw [List.cons_append, List.getLastD_cons, getLastD_append, List.getLastD_cons]
  rw [hlast]
  rw [hall (cs.getLastD c) (by rw [he]; exact getLastD_cons_mem c cs)]
  rfl

theorem searchVerify_head {tgt v : List Char} {prev : Option Char} {s : List Char}
    (h : matchVerifyAt tgt v prev s = true) : searchVerify tgt v prev s = true := by
  cases s with
  | nil => exact h
  | cons c cs => rw [searchVerify, h, Bool.true_or]

theorem searchVerify_append {tgt v : List Char} :
    ∀ (a : List Char) (prev : Option Char) (s : List Char),
      searchVerify tgt v (prevAt prev a) s = true →
      searchVerify tgt v prev (a ++ s) = true := by
  intro a
  induction a with
  | nil => intro prev s h; exact h
  | cons c a' ih =>
    intro prev s h
    rw [prevAt_cons] at h
    rw [List.cons_append, searchVerify, ih (some c) s h, Bool.or_true]

theorem joinNL_cons (l : List Char) (ls : List (List Char)) (h : ls ≠ []) :
    joinNL (l :: ls) = l ++ '\n' :: joinNL ls := by
  cases ls with
  | nil => exact absurd rfl h
  | cons l' ls' => rfl

theorem prevAt_append_nl (u a' : List Char)
    (hcond : prevAt none a' = none ∨ prevAt none a' = some '\n') :
    prevAt none (u ++ '\n' :: a') = some '\n' := by
  have ha : a'.getLastD '\n' = '\n' := by
    cases a' with
    | nil => rfl
    | cons x r =>
      rcases hcond with hc | hc
      · exact absurd (show some (r.getLastD x) = none from hc) (by simp)
      · rw [List.getLastD_cons]
        exact Option.some.inj (show some (r.getLastD x) = some '\n' from hc)
  cases u with
  | nil =>
    show some (a'.getLastD '\n') = some '\n'
    rw [ha]
  | cons h0 t =>
    show some ((t ++ '\n' :: a').getLastD h0) = some '\n'
    rw [getLastD_append, ha]

/-- Any member line of a joined text occurs in it, preceded either by
nothing or by a newline. -/
theorem joinNL_mem_occ (lnc : List Char) :
    ∀ L : List (List Char), lnc ∈ L →
      ∃ a b, joinNL L = a ++ (lnc ++ b) ∧
        (prevAt none a = none ∨ prevAt none a = some '\n') := by
  intro L
  induction L with
  | nil => intro h; cases h
  | cons l0 Ls ih =>
    intro hm
    rcases List.mem_cons.mp hm with rfl | hm
    · cases Ls with
      | nil => exact ⟨[], [], by simp [joinNL], Or.inl rfl⟩
      | cons l1 Ls' =>
        refine ⟨[], '\n' :: joinNL (l1 :: Ls'), ?_, Or.inl rfl⟩
        rw [joinNL_cons _ _ (by simp), List.nil_append]
    · have hLs : Ls ≠ [] := by
        intro he
        rw [he] at hm
        cases hm
      obtain ⟨a', b, hj, hcond⟩ := ih hm
      refine ⟨l0 ++ '\n' :: a', b, ?_, Or.inr (prevAt_append_nl l0 a' hcond)⟩
      rw [joinNL_cons _ _ hLs, hj]
      rw [List.append_assoc, List.cons_append]

/-- C1 (amended): mutate-then-verify succeeds on its own output whenever
every requested variable is an identifier declared alone as the first
declarator of a `float`/`double` declaration line `ty v;` and the target
type is `float` or `double` (as the pipeline invokes it); it fails for
variables declared together on one line as later declarators, such as
`b` in `double a, b;`, where no substitution occurs and verification
reports the variable. -/
theorem change_verify_spec (src : String) (vars : List String) (tgt : String)
    (hne : vars ≠ [])
    (hids : ∀ v ∈ vars, isIdent (v.toList) = true)
    (htgt : isTypeKw (tgt.toList))
    (hdecl : ∀ v ∈ vars, ∃ kw, isTypeKw kw ∧
      (kw ++ ' ' :: v.toList ++ [';']) ∈ splitNL (src.toList)) :
    verify_modifications (change_variable_types src vars tgt) vars tgt = (true, []) := by
  have hch : change_variable_types src vars tgt =
      (joinNL ((splitNL (src.toList)).map (mutate_line vars tgt))).asString := by
    rw [change_variable_types, if_neg]
    intro hie
    exact hne (List.isEmpty_iff.mp hie)
  have hsearch : ∀ v ∈ vars,
      searchVerify (tgt.toList) (v.toList) none
        ((change_variable_types src vars tgt).toList) = true := by
    intro v hv
    obtain ⟨kw, hkw, hmem⟩ := hdecl v hv
    have hline : mutate_line vars tgt (kw ++ ' ' :: v.toList ++ [';']) =
        tgt.toList ++ ' ' :: v.toList ++ [';'] := by
      rw [mutate_line_decl vars v tgt kw (hids v hv) hkw htgt hids, if_pos hv]
    have hmem' : (tgt.toList ++ ' ' :: v.toList ++ [';']) ∈
        (splitNL (src.toList)).map (mutate_line vars tgt) := by
      rw [← hline]
      exact List.mem_map_of_mem _ hmem
    obtain ⟨a, b, hj, hcond⟩ := joinNL_mem_occ _ _ hmem'
    rw [hch, List.toList_asString, hj]
    have hassoc : (tgt.toList ++ ' ' :: v.toList ++ [';']) ++ b =
        tgt.toList ++ (' ' :: (v.toList ++ ';' :: b)) := by
      simp
    have hprevcase : prevAt none a = none ∨
        ∃ p, prevAt none a = some p ∧ isWordChar p = false := by
      rcases hcond with hc | hc
      · exact Or.inl hc
      · exact Or.inr ⟨'\n', hc, by decide⟩
    have hocc := @matchVerifyAt_occ (tgt.toList) (v.toList) (prevAt none a) b
      (hids v hv) htgt hprevcase
    refine searchVerify_append a none _ ?_
    rw [hassoc]
    exact searchVerify_head hocc
  rw [verify_modifications]
  have hfail : vars.filter (fun v => !(searchVerify (tgt.toList) (v.toList) none
      ((change_variable_types src vars tgt).toList))) = [] := by
    rw [List.filter_eq_nil_iff]
    intro v hv
    rw [hsearch v hv]
    decide
  rw [hfail]
  rfl

/-- Witness for `change_verify_spec`: one variable declared on its own
line, mutated to `float` and verified. -/
theorem change_verify_spec_witness :
    verify_modifications
        (change_variable_types ("double x;\ny = x + 1;") (["x"]) ("float"))
        (["x"]) ("float") = (true, []) :=
  change_verify_spec ("double x;\ny = x + 1;") (["x"]) ("float")
    (by simp)
    (by intro v hv; rw [List.mem_singleton.mp hv]; decide)
    (Or.inl rfl)
    (by
      intro v hv
      rw [List.mem_singleton.mp hv]
      exact ⟨("double").toList, Or.inr rfl, by decide⟩)

/-- C6 (amended): mutating variable `x` is a per-line transform, and a
declaration line `ty y;` of a different variable `y ≠ x` is left
byte-identical — including when `y` is a substring of `x` or vice
versa; but when `y` is a later declarator in a comma-grouped declaration
shared with `x` (as in `double a, b;`), rewriting the shared type
keyword changes `y`'s declared type too. -/
theorem change_frame_spec (src : String) (x y tgt : String) (kw : List Char)
    (hx : isIdent (x.toList) = true) (hy : isIdent (y.toList) = true)
    (hkw : isTypeKw kw) (hxy : x ≠ y) :
    mutate_line ([x]) tgt (kw ++ ' ' :: y.toList ++ [';']) =
      kw ++ ' ' :: y.toList ++ [';'] ∧
    change_variable_types src ([x]) tgt =
      (joinNL ((splitNL (src.toList)).map (mutate_line ([x]) tgt))).asString := by
  constructor
  · rw [mutate_line, List.foldl_cons, List.foldl_nil]
    rw [subP1Line_other hx hy hkw (string_toList_ne hxy), subP2Line_any hx hy hkw]
  · rw [change_variable_types, if_neg]
    simp

/-- Witness for `change_frame_spec` with nested identifier names. -/
theorem change_frame_spec_witness :
    mutate_line (["alphaa"]) ("float")
        ((("double").toList) ++ ' ' :: (("alpha").toList) ++ [';']) =
      (("double").toList) ++ ' ' :: (("alpha").toList) ++ [';'] ∧
    change_variable_types ("double alpha;") (["alphaa"]) ("float") =
      (joinNL ((splitNL (("double alpha;").toList)).map
        (mutate_line (["alphaa"]) ("float")))).asString :=
  change_frame_spec ("double alpha;") ("alphaa") ("alpha") ("float")
    (("double").toList) (by decide) (by decide) (Or.inr rfl) (by decide)

/-! ## Variable extraction (`src/scripts/utils/source_parser.py`, `CSourceParser`)

`find_function_scope` searches (MULTILINE) for
`^\s*(?:static\s+)?(?:inline\s+)?(?:\w+\s+)+{func}\s*\([^)]*\)\s*\{` and
returns `(0, len(lines))` when no match exists; `extract_variables` then
iterates Python's `range(start_line - 1, min(end_line, len(lines)))`,
which for the not-found case starts at `-1` — Python's negative indexing
makes it read the last line (reported with line number 0) and then scan
the entire file.  As regular languages, the optional `static`/`inline`
groups are absorbed by `(?:\w+\s+)+`, so the embedding drops them. -/

/-- Rests reachable after one or more repetitions of `\w+\s+`
(each repetition is a maximal word run then a maximal whitespace run;
fuel-bounded, each repetition consumes at least two characters). -/
def repWordSp : Nat → List Char → List (List Char)
  | 0, _ => []
  | fuel + 1, s =>
    match takeWhile1 isWordChar s with
    | none => []
    | some (_, s1) =>
      match takeWhile1 isPySpace s1 with
      | none => []
      | some (_, s2) => s2 :: repWordSp fuel s2

/-- The tail `{func}\s*\([^)]*\)\s*\x7b` of the FUNCTION pattern. -/
def matchFuncTail (fname : List Char) (s : List Char) : Bool :=
  match matchLit fname s with
  | none => false
  | some s1 =>
    match s1.dropWhile isPySpace with
    | '(' :: s2 =>
      match (s2.dropWhile (fun c => c != ')')) with
      | ')' :: s3 =>
        match s3.dropWhile isPySpace with
        | '{' :: _ => true
        | _ => false
      | _ => false
    | _ => false

/-- One anchored attempt of the FUNCTION pattern at a `^` position. -/
def matchFuncAt (fname : List Char) (s : List Char) : Bool :=
  let s0 := s.dropWhile isPySpace
  (repWordSp s0.length s0).any (fun rest => matchFuncTail fname rest)

/-- The 1-based line number of the first `^` position (string start or
right after a newline) where the FUNCTION pattern matches, as
`source_code[:match.start()].count('\n') + 1` computes it. -/
def funcScopeStart (fname : List Char) (s : List Char) : Option Nat :=
  if matchFuncAt fname s then some 1 else aux 1 s
where
  aux : Nat → List Char → Option Nat
    | _, [] => none
    | ln, c :: cs =>
      if c = '\n' then
        (if matchFuncAt fname cs then some (ln + 1) else aux (ln + 1) cs)
      else aux ln cs

/-- The brace-matching loop of `find_function_scope`: `el` is the
initial `end_line` (stale if no closing brace is found). -/
def braceLoop : List (List Char) → Nat → Int → Bool → Nat → Nat
  | [], _, _, _, el => el
  | l :: ls, i, cnt, inf, el =>
    let cnt1 := if l.contains '{' then cnt + (l.count '{' : Int) else cnt
    let inf1 := if l.contains '{' then true else inf
    let cnt2 := if l.contains '}' then cnt1 - (l.count '}' : Int) else cnt1
    if inf1 = true ∧ cnt2 = 0 then i else braceLoop ls (i + 1) cnt2 inf1 el

/-- `CSourceParser.find_function_scope(func_name)` over the
comment-stripped source text. -/
def find_function_scope (source_code : List Char) (fname : String) : Int × Int :=
  let lines := splitNL source_code
  match funcScopeStart (fname.toList) source_code with
  | none => (0, (lines.length : Int))
  | some startLine =>
    ((startLine : Int), (braceLoop (lines.drop (startLine - 1)) startLine 0 false startLine : Int))

/-- The identifier class `[a-zA-Z_][a-zA-Z0-9_]*` of VAR_PATTERN. -/
def matchIdent (s : List Char) : Option (List Char × List Char) :=
  match s with
  | [] => none
  | c :: cs =>
    if c.isAlpha || c = '_' then
      some (c :: cs.takeWhile isWordChar, cs.dropWhile isWordChar)
    else none

/-- The repetitions `(?:\s*,\s*[a-zA-Z_][a-zA-Z0-9_]*)*` of VAR_PATTERN,
returning the extra names and the rest (fuel-bounded). -/
def identListReps : Nat → List Char → List (List Char) × List Char
  | 0, s => ([], s)
  | fuel + 1, s =>
    match s.dropWhile isPySpace with
    | ',' :: s2 =>
      match matchIdent (s2.dropWhile isPySpace) with
      | some (id1, s3) =>
        let r := identListReps fuel s3
        (id1 :: r.1, r.2)
      | none => ([], s)
    | _ => ([], s)

/-- `VAR_PATTERN.search(line)` on a single (newline-free) line: the `^`
anchor restricts the match to position 0.  Returns the matched type
keyword and the declared names, already split on commas and stripped of
initializers as `extract_variables` does. -/
def varPatternNames (line : List Char) : Option (List Char × List (List Char)) :=
  match matchTypeKw (line.dropWhile isPySpace) with
  | none => none
  | some (kw, s1) =>
    match takeWhile1 isPySpace s1 with
    | none => none
    | some (_, s2) =>
      match matchIdent s2 with
      | none => none
      | some (id1, s3) =>
        let r := identListReps s3.length s3
        match r.2.dropWhile isPySpace with
        | ';' :: _ => some (kw, id1 :: r.1)
        | '=' :: _ => some (kw, id1 :: r.1)
        | _ => none

/-- The `Variable` dataclass (`name, type, line, scope, declaration`);
`line` is an `Int` because the missing-scope fallback records the last
line with line number 0 through Python's `lines[-1]`. -/
structure CVariable where
  name : String
  type : String
  line : Int
  scope : String
  declaration : String
deriving DecidableEq, Repr

/-- Python `lines[i]` with negative-index wrap-around (in-range use). -/
def pyIndex (lines : List (List Char)) (i : Int) : List Char :=
  if i < 0 then lines.getD (lines.length - (-i).toNat) []
  else lines.getD i.toNat []

/-- `CSourceParser.extract_variables(function_name)`: scan the computed
line range (including Python's index `-1` when the range starts below
zero) and record one `Variable` per declared name on each matching
line. -/
def extract_variables (source_code : List Char) (function_name : Option String) :
    List CVariable :=
  let lines := splitNL source_code
  let p : Int × Int × String :=
    match function_name with
    | some fn =>
      let q := find_function_scope source_code fn
      (q.1, q.2, fn)
    | none => (0, (lines.length : Int), "global")
  let lo := p.1 - 1
  let hi := min p.2.1 (lines.length : Int)
  let count := (hi - lo).toNat
  ((List.range count).map (fun k =>
    let i : Int := lo + (k : Int)
    let line := pyIndex lines i
    match varPatternNames line with
    | none => []
    | some (kw, names) =>
      names.map (fun nm =>
        (⟨nm.asString, kw.asString, i + 1, p.2.2, (pyStrip line).asString⟩ : CVariable)))).flatten

/-- C9 counterexample: asking for a scope that does not occur in the
source does not give an empty list — the fallback range scans the whole
file (Python index `-1` first, reported as line 0), and the single
declaration is reported twice, labelled with the requested scope. -/
theorem extract_missing_scope_counterexample :
    extract_variables (("double x = 1.0;").toList) (some "compute") =
      [⟨"x", "double", 0, "compute", "double x = 1.0;"⟩,
       ⟨"x", "double", 1, "compute", "double x = 1.0;"⟩] ∧
    extract_variables (("double x = 1.0;").toList) (some "compute") ≠ [] := by
  have h : extract_variables (("double x = 1.0;").toList) (some "compute") =
      [⟨"x", "double", 0, "compute", "double x = 1.0;"⟩,
       ⟨"x", "double", 1, "compute", "double x = 1.0;"⟩] := rfl
  refine ⟨h, ?_⟩
  rw [h]
  simp

/-- C9 (amended): when the requested function scope is not found,
`find_function_scope` falls back to `(0, len(lines))` and
`extract_variables` behaves exactly like the whole-file (global) scan,
relabelling every record with the requested scope — it does not crash,
but it returns every declaration in the file (with the last line doubly
scanned through Python's index `-1`), not an empty list. -/
theorem extract_missing_scope_spec (src : List Char) (fn : String)
    (h : funcScopeStart (fn.toList) src = none) :
    extract_variables src (some fn) =
      (extract_variables src none).map
        (fun v => ⟨v.name, v.type, v.line, fn, v.declaration⟩) := by
  have hq : find_function_scope src fn = (0, ((splitNL src).length : Int)) := by
    rw [find_function_scope]
    simp only [h]
  rw [extract_variables, extract_variables, hq]
  rw [List.map_flatten]
  congr 1
  rw [List.map_map]
  apply List.map_congr_left
  intro k _
  simp only [Function.comp_apply]
  cases hv : varPatternNames (pyIndex (splitNL src) ((0 : Int) - 1 + (k : Int))) with
  | none => simp [hv]
  | some pr =>
    simp only [hv]
    rw [List.map_map]
    rfl

/-- Witness for `extract_missing_scope_spec` on a one-line source and a
scope name that does not occur in it. -/
theorem extract_missing_scope_spec_witness :
    extract_variables (("double x = 1.0;").toList) (some "compute") =
      (extract_variables (("double x = 1.0;").toList) none).map
        (fun v => ⟨v.name, v.type, v.line, "compute", v.declaration⟩) :=
  extract_missing_scope_spec (("double x = 1.0;").toList) ("compute") rfl
